import Mathlib

/-!
# devcontainer-portforward client: forwarding engine

A shallow embedding of `client/main.go`: the listen-snapshot differ
(`updateListens`), the polling watcher (`watchListens`), the event handler
closure of `loop`, and the goroutine structure of `exchange`, `forward` and
`loop` as step functions on explicit state.
-/

namespace PortForward

/-! ## Data model -/

/-- Go `error` values, identified by their message. -/
abbrev GoError := String

/-- The value type `netip.AddrPort`: an IP address (abstracted to a number that
identifies address and zone) and a 16-bit port. Equality is structural. -/
structure AddrPort where
  ip : Nat
  port : Nat
  deriving DecidableEq, Repr

/-- The lookup `_, exists := m[k]` on a Go map used as a set, the keys kept in a list. -/
def mapHas {α : Type} [DecidableEq α] (m : List α) (k : α) : Bool :=
  decide (k ∈ m)

/-- The assignment `m[k] = struct{}{}` on a Go map used as a set. -/
def mapSet {α : Type} [DecidableEq α] (m : List α) (k : α) : List α :=
  if k ∈ m then m else m ++ [k]

/-- The call `delete(m, k)` on a Go map used as a set. -/
def mapDelete {α : Type} [DecidableEq α] (m : List α) (k : α) : List α :=
  m.filter (fun x => decide (x ≠ k))

/-- The order in which one `for k := range m` visits the keys of a map. Go leaves
it unspecified; every key is visited exactly once. -/
structure RangeOrder where
  visit : List AddrPort → List AddrPort
  visit_perm : ∀ l, (visit l).Perm l

/-- Visit the keys in the order they are stored. -/
def RangeOrder.stored : RangeOrder := ⟨fun l => l, fun l => List.Perm.refl l⟩

/-- Visit the keys in the reverse of the order they are stored. -/
def RangeOrder.reversed : RangeOrder := ⟨fun l => l.reverse, fun l => List.reverse_perm l⟩

/-! ## `updateListens` (main.go 93-121) -/

/-- The locals `new`, `old`, `added` of `updateListens` during its first loop. -/
structure DiffAcc where
  new : List AddrPort
  old : List AddrPort
  added : List AddrPort
  deriving DecidableEq, Repr

/-- One iteration of `for _, addr := range l` (main.go 105-114). -/
def diffStep (acc : DiffAcc) (addr : AddrPort) : DiffAcc :=
  let new := mapSet acc.new addr
  if mapHas acc.old addr then
    { new := new, old := mapDelete acc.old addr, added := acc.added }
  else
    { new := new, old := acc.old, added := acc.added ++ [addr] }

/-- The function `updateListens(m)`. `query` is what `ListListens()` returns and
`m` the map behind the pointer; the result pairs the returned
`(added, removed, err)` with the map behind the pointer afterwards. -/
def updateListens (ord : RangeOrder) (query : Except GoError (List AddrPort))
    (m : List AddrPort) : Except GoError (List AddrPort × List AddrPort) × List AddrPort :=
  match query with
  | .error err => (.error err, m)
  | .ok l =>
    let acc := l.foldl diffStep { new := [], old := m, added := [] }
    (.ok (acc.added, ord.visit acc.old), acc.new)

/-! ## `watchListens` (main.go 123-168) -/

/-- The constants `ADDED` and `REMOVED` of type `listenEventKind`. -/
inductive listenEventKind where
  | ADDED
  | REMOVED
  deriving DecidableEq, Repr

/-- The struct `listenEvent`. -/
structure listenEvent where
  kind : listenEventKind
  addr : AddrPort
  deriving DecidableEq, Repr

/-- What the environment contributes to one iteration of the loop of
`watchListens`: the result of `ListListens()`, the order in which the second
loop of `updateListens` ranges over `old`, and whether the `select` at the end
of the iteration takes `<-cx.Done()` (`true`) or `<-ticker.C` (`false`). -/
structure Tick where
  query : Except GoError (List AddrPort)
  order : RangeOrder
  done : Bool

/-- Where a run of `watchListens` stands once the script of ticks is used up or
the function has returned. `result` is `none` while the function is still in
its loop, `some none` after `return nil` and `some (some err)` after
`return err`; `snapshot` is the local map `m`, `state` what the callback has
made of its state, `unread` the ticks never looked at (no query made). -/
structure WatchRun (σ : Type) where
  result : Option (Option GoError)
  snapshot : List AddrPort
  state : σ
  unread : List Tick

/-- The `for` loop of `watchListens` (main.go 142-167): the callback is a state
transformer, the map `m` and the callback state are threaded through the
iterations. -/
def watchLoop {σ : Type} (callback : σ → listenEvent → σ) :
    List Tick → List AddrPort → σ → WatchRun σ
  | [], m, s => { result := none, snapshot := m, state := s, unread := [] }
  | t :: ts, m, s =>
    match updateListens t.order t.query m with
    | (.error err, m1) =>
      { result := some (some err), snapshot := m1, state := s, unread := ts }
    | (.ok (added, removed), m1) =>
      let s1 := added.foldl (fun st addr => callback st { kind := .ADDED, addr := addr }) s
      let s2 := removed.foldl (fun st addr => callback st { kind := .REMOVED, addr := addr }) s1
      if t.done then
        { result := some none, snapshot := m1, state := s2, unread := ts }
      else
        watchLoop callback ts m1 s2

/-- The function `watchListens(cx, callback)`: the loop entered with the map
`m` freshly made (main.go 136). -/
def watchListens {σ : Type} (callback : σ → listenEvent → σ) (ts : List Tick) (s : σ) :
    WatchRun σ :=
  watchLoop callback ts [] s

/-- A callback that only records the events it is called with, in call order. -/
def recordEvent (trace : List listenEvent) (ev : listenEvent) : List listenEvent :=
  trace ++ [ev]

/-- The ticks of a watcher whose queries all succeed and whose scope is not
cancelled: one per query result, with the range order used in that cycle. -/
def ticksOf (cs : List (List AddrPort × RangeOrder)) : List Tick :=
  cs.map (fun c => { query := .ok c.1, order := c.2, done := false })

/-! ## The handler closure of `loop` (main.go 286-328) -/

/-- The lookup `v, exists := m[k]` on a Go map kept as a list of key-value pairs. -/
def kvGet (m : List (Nat × Nat)) (k : Nat) : Option Nat :=
  match m with
  | [] => none
  | e :: rest => if e.1 = k then some e.2 else kvGet rest k

/-- The call `delete(m, k)` on a Go map kept as a list of key-value pairs. -/
def kvDelete (m : List (Nat × Nat)) (k : Nat) : List (Nat × Nat) :=
  m.filter (fun e => decide (e.1 ≠ k))

/-- The assignment `m[k] = v` on a Go map kept as a list of key-value pairs. -/
def kvPut (m : List (Nat × Nat)) (k v : Nat) : List (Nat × Nat) :=
  kvDelete m k ++ [(k, v)]

/-- The keys of a Go map kept as a list of key-value pairs. -/
def kvKeys (m : List (Nat × Nat)) : List Nat :=
  m.map Prod.fst

/-- What one call of the handler does besides updating `forwards`. A child
scope made by `context.WithCancel(cx2)` is named by a number; `spawn ctx port`
is the `go func()` that runs `forward(cx, client, port)` on child scope `ctx`,
`cancel ctx` a call of the `CancelFunc` of child scope `ctx`. -/
inductive Effect where
  | logEvent (kind : listenEventKind) (addr : AddrPort)
  | logDuplicate (port : Nat)
  | spawn (ctx : Nat) (port : Nat)
  | cancel (ctx : Nat)
  deriving DecidableEq, Repr

/-- The map `forwards` of `loop` (port to the child scope its `CancelFunc`
cancels) and the number of child scopes derived so far. -/
structure Registry where
  forwards : List (Nat × Nat)
  derived : Nat
  deriving DecidableEq, Repr

/-- The registry at the start of `loop`: `forwards` freshly made. -/
def Registry.init : Registry := { forwards := [], derived := 0 }

/-- One call `handler(event)` (main.go 292-328): the registry afterwards and
what the call did, in order. -/
def handlerCall (r : Registry) (event : listenEvent) : Registry × List Effect :=
  let port := event.addr.port
  match event.kind with
  | .ADDED =>
    match kvGet r.forwards port with
    | some _ => (r, [Effect.logEvent event.kind event.addr, Effect.logDuplicate port])
    | none =>
      ({ forwards := kvPut r.forwards port r.derived, derived := r.derived + 1 },
       [Effect.logEvent event.kind event.addr, Effect.spawn r.derived port])
  | .REMOVED =>
    match kvGet r.forwards port with
    | none => (r, [Effect.logEvent event.kind event.addr])
    | some cancel =>
      ({ forwards := kvDelete r.forwards port, derived := r.derived },
       [Effect.logEvent event.kind event.addr, Effect.cancel cancel])

/-- The registry together with everything the handler has done so far. -/
structure LoopState where
  reg : Registry
  effects : List Effect
  deriving DecidableEq, Repr

/-- The state of `loop` before `watchListens` is called. -/
def LoopState.init : LoopState := { reg := Registry.init, effects := [] }

/-- The handler as the callback handed to `watchListens` (main.go 330). -/
def handler (s : LoopState) (event : listenEvent) : LoopState :=
  let out := handlerCall s.reg event
  { reg := out.1, effects := s.effects ++ out.2 }

/-- The sessions a list of effects starts: the `spawn`s, as (scope, port). -/
def sessionsStarted (effs : List Effect) : List (Nat × Nat) :=
  effs.filterMap (fun e => match e with
    | Effect.spawn ctx port => some (ctx, port)
    | _ => none)

/-- The child scopes a list of effects cancels, in order. -/
def scopesCancelled (effs : List Effect) : List Nat :=
  effs.filterMap (fun e => match e with
    | Effect.cancel ctx => some ctx
    | _ => none)

/-- Every key of `forwards` occurs once, no two keys hold the same
`CancelFunc`, and every stored scope has been derived. -/
def Registry.WF (r : Registry) : Prop :=
  (kvKeys r.forwards).Nodup ∧ (r.forwards.map Prod.snd).Nodup ∧
    ∀ e ∈ r.forwards, e.2 < r.derived

instance (r : Registry) : Decidable r.WF := by
  unfold Registry.WF
  infer_instance

/-- The snapshot remembered after the poll cycles `cs`, entered with snapshot
`P`: the result of the last query, or `P` when there was no cycle. -/
def lastSnapshot (P : List AddrPort) : List (List AddrPort × RangeOrder) → List AddrPort
  | [] => P
  | c :: cs => lastSnapshot c.1 cs

/-- The snapshot `C` gains port `p`: it has an endpoint with port `p` that the
snapshot `P` before it did not have. -/
def gainsPort (p : Nat) (P C : List AddrPort) : Prop :=
  ∃ a ∈ C, a ∉ P ∧ a.port = p

instance (p : Nat) (P C : List AddrPort) : Decidable (gainsPort p P C) := by
  unfold gainsPort
  infer_instance

/-- The snapshot `C` loses no endpoint with port `p`: every endpoint of the
snapshot `P` before it that is missing from `C` has another port. -/
def keepsPort (p : Nat) (P C : List AddrPort) : Prop :=
  ∀ b ∈ P, b ∉ C → b.port ≠ p

instance (p : Nat) (P C : List AddrPort) : Decidable (keepsPort p P C) := by
  unfold keepsPort
  infer_instance

/-! ## `exchange` (main.go 170-204) -/

/-- The two connections handed to `exchange`. -/
inductive Conn where
  | src
  | dst
  deriving DecidableEq, Repr

/-- The calls `exchange` makes on its connections. -/
inductive ConnCall where
  | close (c : Conn)
  | closeWrite (c : Conn)
  | closeRead (c : Conn)
  deriving DecidableEq, Repr

/-- The state of one call of `exchange` once both copy goroutines are started:
whether `io.Copy(dst, src)` (`copyOut`) and `io.Copy(src, dst)` (`copyBack`)
are still running, the counter of `wg`, the calls made on the connections so
far, whether the `select` has taken `<-cx.Done()`, and whether `exchange` has
returned. -/
structure Exchange where
  copyOut : Bool
  copyBack : Bool
  wg : Nat
  calls : List ConnCall
  cancelled : Bool
  returned : Bool
  deriving DecidableEq, Repr

/-- The state after lines 171-193: both goroutines started, nothing copied. -/
def Exchange.init : Exchange :=
  { copyOut := true, copyBack := true, wg := 2, calls := [], cancelled := false,
    returned := false }

/-- What can happen next in a call of `exchange`. -/
inductive ExchangeEvent where
  | copyOutEnds
  | copyBackEnds
  | ctxDone
  | returns
  deriving DecidableEq, Repr

/-- One step of `exchange`; `none` when the event cannot happen in that state.
`copyOutEnds`: `io.Copy(dst, src)` returns (178), the deferred
`dst.CloseWrite()` (176) and `wg.Done()` (175) run. `copyBackEnds`:
`io.Copy(src, dst)` returns (186), the deferred `dst.CloseRead()` (184) and
`wg.Done()` (183) run. `ctxDone`: the `select` takes `<-cx.Done()` and calls
`src.Close()`, `dst.Close()` (197-199). `returns`: the counter is zero, so
`done` is closed or `wg.Wait()` returns, and `exchange` returns (203). -/
def exchangeStep (x : Exchange) : ExchangeEvent → Option Exchange
  | .copyOutEnds =>
    if x.copyOut then
      some { x with copyOut := false, calls := x.calls ++ [ConnCall.closeWrite Conn.dst],
                    wg := x.wg - 1 }
    else none
  | .copyBackEnds =>
    if x.copyBack then
      some { x with copyBack := false, calls := x.calls ++ [ConnCall.closeRead Conn.dst],
                    wg := x.wg - 1 }
    else none
  | .ctxDone =>
    if x.cancelled || x.returned then none
    else
      some { x with cancelled := true,
                    calls := x.calls ++ [ConnCall.close Conn.src, ConnCall.close Conn.dst] }
  | .returns =>
    if x.wg = 0 && !x.returned then some { x with returned := true } else none

/-! ## `forward` and the goroutines of `loop` (main.go 206-339) -/

/-- Where the goroutine that runs `forward` stands: before `client.ListenTCP`
has returned (207-211), in the `select` loop `L` (244-277), after `break L`
and `cancel()` in `wg.Wait()` (279-280), or returned with the error it
returned. -/
inductive SessionPhase where
  | opening
  | accepting
  | draining
  | returned (err : Option GoError)
  deriving DecidableEq, Repr

/-- One call of `forward` started by the handler: the child scope it runs on,
its port, where it stands, and the counter of its `wg`, the connection
goroutines (258-272) started and not yet finished. -/
structure Session where
  ctx : Nat
  port : Nat
  phase : SessionPhase
  relays : Nat
  deriving DecidableEq, Repr

/-- Where `loop` itself stands: inside `watchListens` (330), after
`cancelAll()` in `wg.Wait()` (331-332, 336-337), or returned. -/
inductive LoopPhase where
  | watching
  | waiting (err : Option GoError)
  | returned (err : Option GoError)
  deriving DecidableEq, Repr

/-- The state of one call of `loop` with its goroutines: the registry, the
sessions started, the child scopes cancelled by the handler, whether `cx2` is
cancelled (by `cancelAll()` or through the parent scope), where `loop` stands,
what the handler did, and the errors logged by session goroutines (313). -/
structure LoopSys where
  reg : Registry
  sessions : List Session
  cancelled : List Nat
  allCancelled : Bool
  phase : LoopPhase
  effects : List Effect
  logged : List GoError
  deriving DecidableEq, Repr

/-- The state of `loop` when it calls `watchListens`. -/
def LoopSys.init : LoopSys :=
  { reg := Registry.init, sessions := [], cancelled := [], allCancelled := false,
    phase := .watching, effects := [], logged := [] }

/-- What can happen next in a call of `loop`. -/
inductive LoopEvent where
  | deliver (ev : listenEvent)
  | parentDone
  | watcherReturns (err : Option GoError)
  | listenFails (ctx : Nat) (err : GoError)
  | listenOk (ctx : Nat)
  | accepted (ctx : Nat)
  | acceptFails (ctx : Nat) (err : GoError)
  | scopeDone (ctx : Nat)
  | relayDone (ctx : Nat)
  | drained (ctx : Nat)
  | loopReturns
  deriving DecidableEq, Repr

/-- Apply `f` to the session on child scope `ctx`; `none` when there is no such
session or `f` does not apply to it. -/
def updateSession (ss : List Session) (ctx : Nat) (f : Session → Option Session) :
    Option (List Session) :=
  match ss with
  | [] => none
  | x :: rest =>
    if x.ctx = ctx then (f x).map (fun y => y :: rest)
    else (updateSession rest ctx f).map (fun ys => x :: ys)

/-- Whether the scope `cx` of a session is done: its own `cancel` was called
or `cx2` of `loop` is cancelled. -/
def LoopSys.scopeIsDone (s : LoopSys) (ctx : Nat) : Bool :=
  s.allCancelled || decide (ctx ∈ s.cancelled)

/-- Whether `forward` has returned in the session. -/
def Session.hasReturned (x : Session) : Bool :=
  match x.phase with
  | .returned _ => true
  | _ => false

/-- One step of `loop` and its goroutines; `none` when the event cannot happen in
that state.
`deliver`: `watchListens` calls the handler (292-328); a `spawn` starts a
session, a `cancel` cancels a child scope.
`parentDone`: the scope passed to `loop` is cancelled, and `cx2` with it.
`watcherReturns`: `watchListens` returns (330), `loop` calls `cancelAll()` and
goes into `wg.Wait()` (331-332, 336-337).
`listenFails`: `client.ListenTCP` fails, `forward` returns the error (211-214),
the goroutine logs it (313) and is done (310).
`listenOk`: `client.ListenTCP` succeeds, `forward` enters loop `L`.
`accepted`: a connection arrives on `c` (247), `wg.Add(1)` and a connection
goroutine is started (257-272).
`acceptFails`: an accept error arrives on `c`; `cancel()`, `return r.err`
(251-254), the goroutine logs it (313) and is done (310).
`scopeDone`: the `select` takes `<-cx2.Done()`, `break L`, `cancel()`, and
`forward` goes into `wg.Wait()` (274-280).
`relayDone`: a connection goroutine of the session finishes, `wg.Done()` (259).
`drained`: `wg.Wait()` returns with the counter at zero, `forward` returns
`nil` (280-283) and the goroutine is done (310).
`loopReturns`: every session goroutine is done, `wg.Wait()` of `loop` returns,
`loop` returns (332-333, 337-338).
The branch `!ok` of `forward` (248-250) has no event: `c` is closed only after
an accept error was sent on it, and `forward` returns when it receives that. -/
def loopStep (s : LoopSys) : LoopEvent → Option LoopSys
  | .deliver ev =>
    match s.phase with
    | .watching =>
      let out := handlerCall s.reg ev
      some { s with
        reg := out.1,
        sessions := s.sessions ++ (sessionsStarted out.2).map
          (fun cp => { ctx := cp.1, port := cp.2, phase := .opening, relays := 0 }),
        cancelled := s.cancelled ++ scopesCancelled out.2,
        effects := s.effects ++ out.2 }
    | _ => none
  | .parentDone => some { s with allCancelled := true }
  | .watcherReturns err =>
    match s.phase with
    | .watching => some { s with allCancelled := true, phase := .waiting err }
    | _ => none
  | .listenFails ctx err =>
    (updateSession s.sessions ctx (fun x =>
      match x.phase with
      | .opening => some { x with phase := .returned (some err) }
      | _ => none)).map
      (fun ss => { s with sessions := ss, logged := s.logged ++ [err] })
  | .listenOk ctx =>
    (updateSession s.sessions ctx (fun x =>
      match x.phase with
      | .opening => some { x with phase := .accepting }
      | _ => none)).map
      (fun ss => { s with sessions := ss })
  | .accepted ctx =>
    (updateSession s.sessions ctx (fun x =>
      match x.phase with
      | .accepting => some { x with relays := x.relays + 1 }
      | _ => none)).map
      (fun ss => { s with sessions := ss })
  | .acceptFails ctx err =>
    (updateSession s.sessions ctx (fun x =>
      match x.phase with
      | .accepting => some { x with phase := .returned (some err) }
      | _ => none)).map
      (fun ss => { s with sessions := ss, logged := s.logged ++ [err] })
  | .scopeDone ctx =>
    if s.scopeIsDone ctx then
      (updateSession s.sessions ctx (fun x =>
        match x.phase with
        | .accepting => some { x with phase := .draining }
        | _ => none)).map
        (fun ss => { s with sessions := ss })
    else none
  | .relayDone ctx =>
    (updateSession s.sessions ctx (fun x =>
      if 0 < x.relays then some { x with relays := x.relays - 1 } else none)).map
      (fun ss => { s with sessions := ss })
  | .drained ctx =>
    (updateSession s.sessions ctx (fun x =>
      match x.phase with
      | .draining => if x.relays = 0 then some { x with phase := .returned none } else none
      | _ => none)).map
      (fun ss => { s with sessions := ss })
  | .loopReturns =>
    match s.phase with
    | .waiting err =>
      if s.sessions.all Session.hasReturned then some { s with phase := .returned err }
      else none
    | _ => none

/-- Run a schedule of events from a state; `none` as soon as one cannot happen. -/
def loopRun (s : LoopSys) : List LoopEvent → Option LoopSys
  | [] => some s
  | e :: es =>
    match loopStep s e with
    | none => none
    | some s1 => loopRun s1 es

/-- Whether `loop` has returned. -/
def LoopSys.loopReturned (s : LoopSys) : Bool :=
  match s.phase with
  | .returned _ => true
  | _ => false

/-- A session that has not opened its listener, or whose `forward` returned
`nil`, has no connection goroutine in flight. -/
def Session.drainedIfNil (x : Session) : Prop :=
  (x.phase = .opening ∨ x.phase = .returned none) → x.relays = 0

/-! ## Lemmas on the differ -/

theorem mem_mapSet {α : Type} [DecidableEq α] (m : List α) (k a : α) :
    a ∈ mapSet m k ↔ a ∈ m ∨ a = k := by
  unfold mapSet
  split
  · constructor
    · intro h; exact Or.inl h
    · rintro (h | h)
      · exact h
      · subst h; assumption
  · simp

theorem nodup_mapSet {α : Type} [DecidableEq α] (m : List α) (k : α) (h : m.Nodup) :
    (mapSet m k).Nodup := by
  unfold mapSet
  split
  · exact h
  · rename_i hk
    rw [List.nodup_append]
    refine ⟨h, List.nodup_singleton k, ?_⟩
    intro a ha hb
    simp at hb
    subst hb
    exact hk ha

theorem mem_mapDelete {α : Type} [DecidableEq α] (m : List α) (k a : α) :
    a ∈ mapDelete m k ↔ a ∈ m ∧ a ≠ k := by
  simp [mapDelete]

theorem foldl_diffStep_new (l : List AddrPort) (acc : DiffAcc) (a : AddrPort) :
    a ∈ (l.foldl diffStep acc).new ↔ a ∈ acc.new ∨ a ∈ l := by
  induction l generalizing acc with
  | nil => simp
  | cons x xs ih =>
    rw [List.foldl_cons, ih]
    have hx : (diffStep acc x).new = mapSet acc.new x := by
      unfold diffStep; split <;> rfl
    rw [hx, mem_mapSet]
    simp only [List.mem_cons]
    tauto

theorem foldl_diffStep_new_nodup (l : List AddrPort) (acc : DiffAcc) (h : acc.new.Nodup) :
    (l.foldl diffStep acc).new.Nodup := by
  induction l generalizing acc with
  | nil => simpa using h
  | cons x xs ih =>
    rw [List.foldl_cons]
    apply ih
    have hx : (diffStep acc x).new = mapSet acc.new x := by
      unfold diffStep; split <;> rfl
    rw [hx]
    exact nodup_mapSet _ _ h

theorem foldl_diffStep_old (l : List AddrPort) (acc : DiffAcc) (a : AddrPort) :
    a ∈ (l.foldl diffStep acc).old ↔ a ∈ acc.old ∧ a ∉ l := by
  induction l generalizing acc with
  | nil => simp
  | cons x xs ih =>
    rw [List.foldl_cons, ih]
    have hx : ∀ b, b ∈ (diffStep acc x).old ↔ b ∈ acc.old ∧ b ≠ x := by
      intro b
      unfold diffStep
      split
      · exact mem_mapDelete _ _ _
      · rename_i hn
        simp only [mapHas, decide_eq_true_eq] at hn
        constructor
        · intro hb
          exact ⟨hb, fun e => hn (e ▸ hb)⟩
        · exact fun hb => hb.1
    rw [hx]
    simp only [List.mem_cons, not_or]
    tauto

theorem foldl_diffStep_old_nodup (l : List AddrPort) (acc : DiffAcc) (h : acc.old.Nodup) :
    (l.foldl diffStep acc).old.Nodup := by
  induction l generalizing acc with
  | nil => simpa using h
  | cons x xs ih =>
    rw [List.foldl_cons]
    apply ih
    unfold diffStep
    split
    · exact List.Nodup.filter _ h
    · exact h

theorem foldl_diffStep_added (l : List AddrPort) (acc : DiffAcc) (hl : l.Nodup) :
    (l.foldl diffStep acc).added
      = acc.added ++ l.filter (fun a => !mapHas acc.old a) := by
  induction l generalizing acc with
  | nil => simp
  | cons x xs ih =>
    have hx : x ∉ xs := (List.nodup_cons.mp hl).1
    have hxs : xs.Nodup := (List.nodup_cons.mp hl).2
    rw [List.foldl_cons, ih _ hxs]
    by_cases hm : mapHas acc.old x = true
    · have h1 : diffStep acc x
          = { new := mapSet acc.new x, old := mapDelete acc.old x, added := acc.added } := by
        unfold diffStep; rw [if_pos hm]
      rw [h1]
      simp only [List.filter_cons, hm, Bool.not_true]
      congr 1
      apply List.filter_congr
      intro a ha
      have hne : a ≠ x := fun e => hx (e ▸ ha)
      simp [mapHas, mem_mapDelete, hne]
    · have h1 : diffStep acc x
          = { new := mapSet acc.new x, old := acc.old, added := acc.added ++ [x] } := by
        unfold diffStep; rw [if_neg hm]
      rw [h1]
      simp only [Bool.not_eq_true] at hm
      simp [List.filter_cons, hm]


/-! ## The differ and the watcher -/

theorem updateListens_ok (ord : RangeOrder) (C P : List AddrPort) :
    updateListens ord (.ok C) P
      = (.ok ((C.foldl diffStep { new := [], old := P, added := [] }).added,
              ord.visit (C.foldl diffStep { new := [], old := P, added := [] }).old),
         (C.foldl diffStep { new := [], old := P, added := [] }).new) := rfl

theorem diff_added_nodup (P C : List AddrPort) (hC : C.Nodup) :
    (C.foldl diffStep { new := [], old := P, added := [] }).added.Nodup := by
  rw [foldl_diffStep_added _ _ hC]
  simpa using List.Nodup.filter _ hC

theorem diff_added_mem (P C : List AddrPort) (hC : C.Nodup) (a : AddrPort) :
    a ∈ (C.foldl diffStep { new := [], old := P, added := [] }).added ↔ a ∈ C ∧ a ∉ P := by
  rw [foldl_diffStep_added _ _ hC]
  simp [mapHas]

theorem diff_removed_nodup (ord : RangeOrder) (P C : List AddrPort) (hP : P.Nodup) :
    (ord.visit (C.foldl diffStep { new := [], old := P, added := [] }).old).Nodup :=
  (List.Perm.nodup_iff (ord.visit_perm _)).mpr (foldl_diffStep_old_nodup C _ hP)

theorem diff_removed_mem (ord : RangeOrder) (P C : List AddrPort) (a : AddrPort) :
    a ∈ ord.visit (C.foldl diffStep { new := [], old := P, added := [] }).old
      ↔ a ∈ P ∧ a ∉ C := by
  rw [List.Perm.mem_iff (ord.visit_perm _), foldl_diffStep_old]

theorem diff_new_mem (P C : List AddrPort) (a : AddrPort) :
    a ∈ (C.foldl diffStep { new := [], old := P, added := [] }).new ↔ a ∈ C := by
  rw [foldl_diffStep_new]
  simp

/-- C1: with a duplicate-free previous snapshot `P` in the map and a successful,
duplicate-free query result `C`, `updateListens` returns an `added` list holding
exactly the endpoints of `C` not in `P`, each once, a `removed` list holding
exactly the endpoints of `P` not in `C`, each once, and leaves in the map
exactly the endpoints of `C`. -/
theorem updateListens_diff (ord : RangeOrder) (P C : List AddrPort)
    (hP : P.Nodup) (hC : C.Nodup) :
    ∃ added removed snapshot,
      updateListens ord (.ok C) P = (.ok (added, removed), snapshot) ∧
      added.Nodup ∧ (∀ a, a ∈ added ↔ a ∈ C ∧ a ∉ P) ∧
      removed.Nodup ∧ (∀ a, a ∈ removed ↔ a ∈ P ∧ a ∉ C) ∧
      snapshot.Nodup ∧ (∀ a, a ∈ snapshot ↔ a ∈ C) := by
  refine ⟨_, _, _, updateListens_ok ord C P, ?_, ?_, ?_, ?_, ?_, ?_⟩
  · exact diff_added_nodup P C hC
  · exact diff_added_mem P C hC
  · exact diff_removed_nodup ord P C hP
  · exact diff_removed_mem ord P C
  · exact foldl_diffStep_new_nodup C _ List.nodup_nil
  · exact diff_new_mem P C

theorem updateListens_diff_witness :
    [(⟨1, 80⟩ : AddrPort), ⟨5, 53⟩, ⟨6, 443⟩].Nodup ∧
    [(⟨1, 80⟩ : AddrPort), ⟨3, 22⟩].Nodup ∧
    ∃ added removed snapshot,
      updateListens RangeOrder.reversed (.ok [⟨1, 80⟩, ⟨3, 22⟩])
          [⟨1, 80⟩, ⟨5, 53⟩, ⟨6, 443⟩] = (.ok (added, removed), snapshot) ∧
      added.Nodup ∧ (∀ a, a ∈ added ↔ a ∈ [(⟨1, 80⟩ : AddrPort), ⟨3, 22⟩] ∧
        a ∉ [(⟨1, 80⟩ : AddrPort), ⟨5, 53⟩, ⟨6, 443⟩]) ∧
      removed.Nodup ∧ (∀ a, a ∈ removed ↔ a ∈ [(⟨1, 80⟩ : AddrPort), ⟨5, 53⟩, ⟨6, 443⟩] ∧
        a ∉ [(⟨1, 80⟩ : AddrPort), ⟨3, 22⟩]) ∧
      snapshot.Nodup ∧ (∀ a, a ∈ snapshot ↔ a ∈ [(⟨1, 80⟩ : AddrPort), ⟨3, 22⟩]) :=
  ⟨by decide, by decide,
    updateListens_diff RangeOrder.reversed _ _ (by decide) (by decide)⟩

theorem watchLoop_cons_error {σ : Type} (cb : σ → listenEvent → σ) (t : Tick)
    (ts : List Tick) (m m1 : List AddrPort) (s : σ) (err : GoError)
    (hu : updateListens t.order t.query m = (.error err, m1)) :
    watchLoop cb (t :: ts) m s
      = { result := some (some err), snapshot := m1, state := s, unread := ts } := by
  rw [watchLoop]
  simp only [hu]

theorem watchLoop_cons_ok {σ : Type} (cb : σ → listenEvent → σ) (t : Tick)
    (ts : List Tick) (m m1 added removed : List AddrPort) (s : σ)
    (hu : updateListens t.order t.query m = (.ok (added, removed), m1)) :
    watchLoop cb (t :: ts) m s
      = if t.done then
          { result := some none, snapshot := m1,
            state := removed.foldl (fun st addr => cb st { kind := .REMOVED, addr := addr })
              (added.foldl (fun st addr => cb st { kind := .ADDED, addr := addr }) s),
            unread := ts }
        else
          watchLoop cb ts m1
            (removed.foldl (fun st addr => cb st { kind := .REMOVED, addr := addr })
              (added.foldl (fun st addr => cb st { kind := .ADDED, addr := addr }) s)) := by
  rw [watchLoop]
  simp only [hu]

theorem watchLoop_append {σ : Type} (cb : σ → listenEvent → σ)
    (pre ts : List Tick) (m : List AddrPort) (s : σ)
    (h : (watchLoop cb pre m s).result = none) :
    watchLoop cb (pre ++ ts) m s
      = watchLoop cb ts (watchLoop cb pre m s).snapshot
          (watchLoop cb pre m s).state := by
  induction pre generalizing m s with
  | nil => rfl
  | cons t rest ih =>
    rw [List.cons_append]
    rcases hu : updateListens t.order t.query m with ⟨(err | ⟨added, removed⟩), m1⟩
    · rw [watchLoop_cons_error cb t rest m m1 s err hu] at h
      simp at h
    · rw [watchLoop_cons_ok cb t rest m m1 added removed s hu] at h ⊢
      rw [watchLoop_cons_ok cb t (rest ++ ts) m m1 added removed s hu]
      by_cases hd : t.done = true
      · simp [hd] at h
      · simp only [hd] at h ⊢
        exact ih _ _ h

/-- C4: in a poll cycle of `watchListens` whose query succeeds, the callback is
called once per endpoint of `added`, in list order, with an `ADDED` event, then
once per endpoint of `removed`, in list order, with a `REMOVED` event, and not
otherwise: the callback state after the cycle is the state before it run
through exactly these events, in this order. -/
theorem watchListens_cycle_events {σ : Type} (cb : σ → listenEvent → σ)
    (pre : List Tick) (t : Tick) (s : σ) (added removed m1 : List AddrPort)
    (hrun : (watchListens cb pre s).result = none)
    (hq : updateListens t.order t.query (watchListens cb pre s).snapshot
      = (.ok (added, removed), m1)) :
    (watchListens cb (pre ++ [t]) s).state
      = (added.map (listenEvent.mk .ADDED)
          ++ removed.map (listenEvent.mk .REMOVED)).foldl cb
        (watchListens cb pre s).state := by
  unfold watchListens at hrun hq ⊢
  rw [watchLoop_append _ _ _ _ _ hrun,
    watchLoop_cons_ok cb t [] _ m1 added removed _ hq]
  rw [List.foldl_append, List.foldl_map, List.foldl_map]
  by_cases hd : t.done = true
  · simp [hd]
  · simp [hd, watchLoop]

/-- C5: when the query of a poll cycle fails, `watchListens` returns that error,
makes no later query, does not call the callback in that cycle, and
`updateListens` leaves the remembered snapshot as it was. -/
theorem watchListens_query_error {σ : Type} (cb : σ → listenEvent → σ)
    (pre : List Tick) (t : Tick) (rest : List Tick) (err : GoError) (s : σ)
    (hrun : (watchListens cb pre s).result = none)
    (hq : t.query = .error err) :
    (watchListens cb (pre ++ t :: rest) s).result = some (some err) ∧
    (watchListens cb (pre ++ t :: rest) s).unread = rest ∧
    (watchListens cb (pre ++ t :: rest) s).state = (watchListens cb pre s).state ∧
    (watchListens cb (pre ++ t :: rest) s).snapshot = (watchListens cb pre s).snapshot ∧
    updateListens t.order t.query (watchListens cb pre s).snapshot
      = (.error err, (watchListens cb pre s).snapshot) := by
  unfold watchListens at hrun ⊢
  have hu : updateListens t.order t.query (watchLoop cb pre [] s).snapshot
      = (.error err, (watchLoop cb pre [] s).snapshot) := by
    rw [hq]; rfl
  rw [watchLoop_append _ _ _ _ _ hrun, watchLoop_cons_error cb t rest _ _ _ err hu]
  exact ⟨rfl, rfl, rfl, rfl, hu⟩

theorem watchListens_cycle_events_witness :
    (watchListens recordEvent
        [{ query := .ok [⟨1, 80⟩, ⟨2, 22⟩], order := RangeOrder.stored, done := false }]
        []).result = none ∧
    updateListens RangeOrder.reversed (.ok [⟨3, 443⟩]) [⟨1, 80⟩, ⟨2, 22⟩]
      = (.ok ([⟨3, 443⟩], [⟨2, 22⟩, ⟨1, 80⟩]), [⟨3, 443⟩]) ∧
    (watchListens recordEvent
        ([{ query := .ok [⟨1, 80⟩, ⟨2, 22⟩], order := RangeOrder.stored, done := false }] ++
         [{ query := .ok [⟨3, 443⟩], order := RangeOrder.reversed, done := false }])
        []).state
      = [⟨.ADDED, ⟨1, 80⟩⟩, ⟨.ADDED, ⟨2, 22⟩⟩, ⟨.ADDED, ⟨3, 443⟩⟩,
         ⟨.REMOVED, ⟨2, 22⟩⟩, ⟨.REMOVED, ⟨1, 80⟩⟩] :=
  ⟨rfl, rfl,
    watchListens_cycle_events recordEvent
      [{ query := .ok [⟨1, 80⟩, ⟨2, 22⟩], order := RangeOrder.stored, done := false }]
      { query := .ok [⟨3, 443⟩], order := RangeOrder.reversed, done := false }
      [] [⟨3, 443⟩] [⟨2, 22⟩, ⟨1, 80⟩] [⟨3, 443⟩] rfl rfl⟩

theorem watchListens_query_error_witness :
    (watchListens recordEvent
        [{ query := .ok [⟨1, 80⟩], order := RangeOrder.stored, done := false }]
        []).result = none ∧
    (watchListens recordEvent
        ([{ query := .ok [⟨1, 80⟩], order := RangeOrder.stored, done := false }] ++
          { query := .error "netlink: denied", order := RangeOrder.stored, done := false } ::
          [{ query := .ok [], order := RangeOrder.stored, done := false }])
        []).result = some (some "netlink: denied") ∧
    (watchListens recordEvent
        ([{ query := .ok [⟨1, 80⟩], order := RangeOrder.stored, done := false }] ++
          { query := .error "netlink: denied", order := RangeOrder.stored, done := false } ::
          [{ query := .ok [], order := RangeOrder.stored, done := false }])
        []).unread = [{ query := .ok [], order := RangeOrder.stored, done := false }] ∧
    (watchListens recordEvent
        ([{ query := .ok [⟨1, 80⟩], order := RangeOrder.stored, done := false }] ++
          { query := .error "netlink: denied", order := RangeOrder.stored, done := false } ::
          [{ query := .ok [], order := RangeOrder.stored, done := false }])
        []).state = [⟨.ADDED, ⟨1, 80⟩⟩] :=
  ⟨rfl,
    (watchListens_query_error recordEvent
      [{ query := .ok [⟨1, 80⟩], order := RangeOrder.stored, done := false }]
      { query := .error "netlink: denied", order := RangeOrder.stored, done := false }
      [{ query := .ok [], order := RangeOrder.stored, done := false }]
      "netlink: denied" [] rfl rfl).1,
    (watchListens_query_error recordEvent
      [{ query := .ok [⟨1, 80⟩], order := RangeOrder.stored, done := false }]
      { query := .error "netlink: denied", order := RangeOrder.stored, done := false }
      [{ query := .ok [], order := RangeOrder.stored, done := false }]
      "netlink: denied" [] rfl rfl).2.1,
    (watchListens_query_error recordEvent
      [{ query := .ok [⟨1, 80⟩], order := RangeOrder.stored, done := false }]
      { query := .error "netlink: denied", order := RangeOrder.stored, done := false }
      [{ query := .ok [], order := RangeOrder.stored, done := false }]
      "netlink: denied" [] rfl rfl).2.2.1⟩

/-! ## The handler -/

theorem kvGet_eq_none_iff (m : List (Nat × Nat)) (k : Nat) :
    kvGet m k = none ↔ k ∉ kvKeys m := by
  induction m with
  | nil => simp [kvGet, kvKeys]
  | cons e rest ih =>
    unfold kvGet
    by_cases h : e.1 = k
    · simp [h, kvKeys]
    · simp only [h, if_false, ih, kvKeys, List.map_cons, List.mem_cons, not_or]
      constructor
      · intro hr
        exact ⟨fun e1 => h e1.symm, hr⟩
      · exact fun hr => hr.2

theorem kvGet_mem (m : List (Nat × Nat)) (k v : Nat) (h : kvGet m k = some v) :
    (k, v) ∈ m := by
  induction m with
  | nil => simp [kvGet] at h
  | cons e rest ih =>
    unfold kvGet at h
    by_cases hk : e.1 = k
    · simp only [hk, if_true, Option.some.injEq] at h
      have : e = (k, v) := Prod.ext hk h
      rw [this]
      exact List.mem_cons_self _ _
    · simp only [hk, if_false] at h
      exact List.mem_cons_of_mem _ (ih h)

theorem kvGet_cons (e : Nat × Nat) (rest : List (Nat × Nat)) (k : Nat) :
    kvGet (e :: rest) k = if e.1 = k then some e.2 else kvGet rest k := rfl

theorem kvGet_append (m n : List (Nat × Nat)) (k : Nat) :
    kvGet (m ++ n) k = (kvGet m k).orElse (fun _ => kvGet n k) := by
  induction m with
  | nil => simp [kvGet]
  | cons e rest ih =>
    rw [List.cons_append, kvGet_cons, kvGet_cons]
    by_cases hk : e.1 = k
    · simp [hk]
    · simp only [hk, if_false]
      exact ih

theorem kvGet_kvDelete (m : List (Nat × Nat)) (k q : Nat) :
    kvGet (kvDelete m k) q = if q = k then none else kvGet m q := by
  induction m with
  | nil => simp [kvGet, kvDelete]
  | cons e rest ih =>
    unfold kvDelete at ih ⊢
    by_cases hk : e.1 = k
    · have hf : List.filter (fun e => decide (e.1 ≠ k)) (e :: rest)
          = List.filter (fun e => decide (e.1 ≠ k)) rest := by
        simp [List.filter_cons, hk]
      rw [hf, ih, kvGet_cons]
      by_cases hq : q = k
      · simp [hq]
      · have : ¬ e.1 = q := fun h => hq (h ▸ hk)
        simp [hq, this]
    · have hf : List.filter (fun e => decide (e.1 ≠ k)) (e :: rest)
          = e :: List.filter (fun e => decide (e.1 ≠ k)) rest := by
        simp [List.filter_cons, hk]
      rw [hf, kvGet_cons, kvGet_cons, ih]
      by_cases hq : q = k
      · have : ¬ e.1 = q := fun h => hk (h.trans hq)
        simp [hq, hk]
      · simp [hq]

theorem kvGet_kvPut (m : List (Nat × Nat)) (k v q : Nat) :
    kvGet (kvPut m k v) q = if q = k then some v else kvGet m q := by
  unfold kvPut
  rw [kvGet_append, kvGet_kvDelete]
  by_cases hq : q = k
  · simp [hq, kvGet]
  · have : ¬ k = q := fun h => hq h.symm
    simp only [hq, if_false, kvGet, this]
    cases kvGet m q <;> simp

theorem mem_kvKeys_kvDelete (m : List (Nat × Nat)) (k p : Nat) :
    p ∈ kvKeys (kvDelete m k) ↔ p ∈ kvKeys m ∧ p ≠ k := by
  simp only [kvKeys, kvDelete, List.mem_map, List.mem_filter, decide_eq_true_eq]
  constructor
  · rintro ⟨e, ⟨he, hne⟩, rfl⟩
    exact ⟨⟨e, he, rfl⟩, hne⟩
  · rintro ⟨⟨e, he, rfl⟩, hne⟩
    exact ⟨e, ⟨he, hne⟩, rfl⟩

theorem mem_kvKeys_kvPut (m : List (Nat × Nat)) (k v p : Nat) :
    p ∈ kvKeys (kvPut m k v) ↔ p ∈ kvKeys m ∨ p = k := by
  have h := mem_kvKeys_kvDelete m k p
  unfold kvPut
  unfold kvKeys at h ⊢
  rw [List.map_append, List.mem_append, h]
  simp only [List.map_cons, List.map_nil, List.mem_singleton]
  by_cases hp : p = k
  · simp [hp]
  · simp [hp]

theorem handlerCall_removed_some (r : Registry) (e : AddrPort) (c : Nat)
    (hk : kvGet r.forwards e.port = some c) :
    handlerCall r { kind := .REMOVED, addr := e }
      = ({ forwards := kvDelete r.forwards e.port, derived := r.derived },
         [Effect.logEvent .REMOVED e, Effect.cancel c]) := by
  simp only [handlerCall, hk]

theorem handlerCall_removed_none (r : Registry) (e : AddrPort)
    (hk : kvGet r.forwards e.port = none) :
    handlerCall r { kind := .REMOVED, addr := e } = (r, [Effect.logEvent .REMOVED e]) := by
  simp only [handlerCall, hk]

theorem handlerCall_added_some (r : Registry) (e : AddrPort) (c : Nat)
    (hk : kvGet r.forwards e.port = some c) :
    handlerCall r { kind := .ADDED, addr := e }
      = (r, [Effect.logEvent .ADDED e, Effect.logDuplicate e.port]) := by
  simp only [handlerCall, hk]

theorem handlerCall_added_none (r : Registry) (e : AddrPort)
    (hk : kvGet r.forwards e.port = none) :
    handlerCall r { kind := .ADDED, addr := e }
      = ({ forwards := kvPut r.forwards e.port r.derived, derived := r.derived + 1 },
         [Effect.logEvent .ADDED e, Effect.spawn r.derived e.port]) := by
  simp only [handlerCall, hk]

theorem Registry.init_WF : Registry.init.WF := by
  unfold Registry.WF Registry.init kvKeys
  simp

theorem handlerCall_WF (r : Registry) (event : listenEvent) (h : r.WF) :
    (handlerCall r event).1.WF := by
  obtain ⟨kind, e⟩ := event
  obtain ⟨hkeys, hvals, hlt⟩ := h
  have hsubK : (kvKeys (kvDelete r.forwards e.port)).Sublist (kvKeys r.forwards) :=
    List.Sublist.map _ (List.filter_sublist _)
  have hsubV : ((kvDelete r.forwards e.port).map Prod.snd).Sublist (r.forwards.map Prod.snd) :=
    List.Sublist.map _ (List.filter_sublist _)
  have hmemD : ∀ x ∈ kvDelete r.forwards e.port, x ∈ r.forwards :=
    fun x hx => (List.mem_filter.mp hx).1
  cases kind with
  | ADDED =>
    rcases hk : kvGet r.forwards e.port with _ | c
    · rw [handlerCall_added_none r e hk]
      refine ⟨?_, ?_, ?_⟩
      · show (kvKeys (kvDelete r.forwards e.port ++ [(e.port, r.derived)])).Nodup
        unfold kvKeys at hsubK ⊢
        rw [List.map_append, List.nodup_append]
        refine ⟨hkeys.sublist hsubK, List.nodup_singleton _, ?_⟩
        intro p hp hp1
        simp only [List.map_cons, List.map_nil, List.mem_singleton] at hp1
        have := (mem_kvKeys_kvDelete r.forwards e.port p).mp hp
        exact this.2 hp1
      · show ((kvDelete r.forwards e.port ++ [(e.port, r.derived)]).map Prod.snd).Nodup
        rw [List.map_append, List.nodup_append]
        refine ⟨hvals.sublist hsubV, List.nodup_singleton _, ?_⟩
        intro v hv hv1
        simp only [List.map_cons, List.map_nil, List.mem_singleton] at hv1
        obtain ⟨x, hx, rfl⟩ := List.mem_map.mp hv
        have := hlt x (hmemD x hx)
        omega
      · intro x hx
        show x.2 < r.derived + 1
        rcases List.mem_append.mp hx with hx | hx
        · exact Nat.lt_succ_of_lt (hlt x (hmemD x hx))
        · simp only [List.mem_singleton] at hx
          rw [hx]
          exact Nat.lt_succ_self _
    · rw [handlerCall_added_some r e c hk]
      exact ⟨hkeys, hvals, hlt⟩
  | REMOVED =>
    rcases hk : kvGet r.forwards e.port with _ | c
    · rw [handlerCall_removed_none r e hk]
      exact ⟨hkeys, hvals, hlt⟩
    · rw [handlerCall_removed_some r e c hk]
      exact ⟨hkeys.sublist hsubK, hvals.sublist hsubV, fun x hx => hlt x (hmemD x hx)⟩

/-- C2: when port `P` is a key of a well-formed registry, a `REMOVED` event for
an endpoint with port `P` leaves a registry without the key `P`, calls the
cancel function stored for `P` exactly once, starts no session, leaves the
entry of every other port as it was and does not call the cancel function of
any other port. -/
theorem handler_removed_registered (r : Registry) (e : AddrPort) (c : Nat)
    (hwf : r.WF) (hk : kvGet r.forwards e.port = some c) :
    e.port ∉ kvKeys (handlerCall r { kind := .REMOVED, addr := e }).1.forwards ∧
    (scopesCancelled (handlerCall r { kind := .REMOVED, addr := e }).2).count c = 1 ∧
    sessionsStarted (handlerCall r { kind := .REMOVED, addr := e }).2 = [] ∧
    (∀ q, q ≠ e.port →
      kvGet (handlerCall r { kind := .REMOVED, addr := e }).1.forwards q
        = kvGet r.forwards q) ∧
    (∀ q c1, q ≠ e.port → kvGet r.forwards q = some c1 →
      c1 ∉ scopesCancelled (handlerCall r { kind := .REMOVED, addr := e }).2) := by
  rw [handlerCall_removed_some r e c hk]
  refine ⟨?_, ?_, ?_, ?_, ?_⟩
  · rw [mem_kvKeys_kvDelete]
    exact fun h => h.2 rfl
  · simp [scopesCancelled]
  · simp [sessionsStarted]
  · intro q hq
    simp only [kvGet_kvDelete, hq, if_false]
  · intro q c1 hq hq1
    have h1 := kvGet_mem _ _ _ hk
    have h2 := kvGet_mem _ _ _ hq1
    have hne : c1 ≠ c := by
      intro hc
      have := List.inj_on_of_nodup_map hwf.2.1 h2 h1 hc
      exact hq (Prod.ext_iff.mp this).1
    simpa [scopesCancelled] using hne

theorem handler_removed_registered_witness :
    Registry.WF { forwards := [(80, 0), (22, 1)], derived := 2 } ∧
    22 ∉ kvKeys (handlerCall { forwards := [(80, 0), (22, 1)], derived := 2 }
      { kind := .REMOVED, addr := ⟨7, 22⟩ }).1.forwards ∧
    (scopesCancelled (handlerCall { forwards := [(80, 0), (22, 1)], derived := 2 }
      { kind := .REMOVED, addr := ⟨7, 22⟩ }).2).count 1 = 1 :=
  ⟨by decide,
    (handler_removed_registered { forwards := [(80, 0), (22, 1)], derived := 2 } ⟨7, 22⟩ 1
      (by decide) rfl).1,
    (handler_removed_registered { forwards := [(80, 0), (22, 1)], derived := 2 } ⟨7, 22⟩ 1
      (by decide) rfl).2.1⟩

/-- C9: when the port of `e` is not a key of the registry, a `REMOVED` event
for `e` leaves the registry as it was, calls no cancel function, starts no
session, and only logs the event. -/
theorem handler_removed_unregistered (r : Registry) (e : AddrPort)
    (hk : e.port ∉ kvKeys r.forwards) :
    (handlerCall r { kind := .REMOVED, addr := e }).1 = r ∧
    scopesCancelled (handlerCall r { kind := .REMOVED, addr := e }).2 = [] ∧
    sessionsStarted (handlerCall r { kind := .REMOVED, addr := e }).2 = [] ∧
    (handlerCall r { kind := .REMOVED, addr := e }).2 = [Effect.logEvent .REMOVED e] := by
  rw [handlerCall_removed_none r e ((kvGet_eq_none_iff _ _).mpr hk)]
  exact ⟨rfl, rfl, rfl, rfl⟩

theorem handler_removed_unregistered_witness :
    (22 : Nat) ∉ kvKeys [(80, 0)] ∧
    (handlerCall { forwards := [(80, 0)], derived := 1 }
      { kind := .REMOVED, addr := ⟨7, 22⟩ }).1 = { forwards := [(80, 0)], derived := 1 } :=
  ⟨by decide,
    (handler_removed_unregistered { forwards := [(80, 0)], derived := 1 } ⟨7, 22⟩
      (by decide)).1⟩

/-- C3 as stated fails: in the registry reached from the empty one by
`Added(0.0.0.0:8080)`, port 8080 is a key, and processing `Added(0.0.0.0:8080)`
twice more starts no session at all. -/
theorem handler_added_twice_registered_starts_none :
    sessionsStarted
      ((handlerCall (handlerCall Registry.init ⟨.ADDED, ⟨0, 8080⟩⟩).1
          ⟨.ADDED, ⟨0, 8080⟩⟩).2 ++
       (handlerCall (handlerCall (handlerCall Registry.init ⟨.ADDED, ⟨0, 8080⟩⟩).1
          ⟨.ADDED, ⟨0, 8080⟩⟩).1 ⟨.ADDED, ⟨0, 8080⟩⟩).2) = [] := by
  decide

/-- C3 amended: processing `Added(e)` twice in a row starts exactly one session
for the port of `e` when that port is not yet a key of the registry and none
when it already is; in every registry state the second `Added(e)` leaves the
registry as the first left it, starts no session and cancels nothing. -/
theorem handler_added_twice (r : Registry) (e : AddrPort) :
    sessionsStarted
      ((handlerCall r ⟨.ADDED, e⟩).2 ++
       (handlerCall (handlerCall r ⟨.ADDED, e⟩).1 ⟨.ADDED, e⟩).2)
      = (if e.port ∈ kvKeys r.forwards then [] else [(r.derived, e.port)]) ∧
    (handlerCall (handlerCall r ⟨.ADDED, e⟩).1 ⟨.ADDED, e⟩).1
      = (handlerCall r ⟨.ADDED, e⟩).1 ∧
    sessionsStarted (handlerCall (handlerCall r ⟨.ADDED, e⟩).1 ⟨.ADDED, e⟩).2 = [] ∧
    scopesCancelled (handlerCall (handlerCall r ⟨.ADDED, e⟩).1 ⟨.ADDED, e⟩).2 = [] := by
  rcases hk : kvGet r.forwards e.port with _ | c
  · have hnot : e.port ∉ kvKeys r.forwards := (kvGet_eq_none_iff _ _).mp hk
    have h2 : kvGet (kvPut r.forwards e.port r.derived) e.port = some r.derived := by
      rw [kvGet_kvPut]; simp
    rw [handlerCall_added_none r e hk]
    rw [handlerCall_added_some _ e r.derived h2]
    simp [sessionsStarted, scopesCancelled, hnot]
  · have hin : e.port ∈ kvKeys r.forwards := by
      by_contra hcon
      rw [(kvGet_eq_none_iff _ _).mpr hcon] at hk
      exact Option.noConfusion hk
    rw [handlerCall_added_some r e c hk]
    rw [handlerCall_added_some r e c hk]
    simp [sessionsStarted, scopesCancelled, hin]

/-! ## `exchange` -/

/-- C8 as stated fails: when `io.Copy(src, dst)` ends in a fresh call of
`exchange`, the only call made is `dst.CloseRead()`; the write side of `src`
is not closed. -/
theorem exchange_copyBack_no_closeWrite_src :
    ∃ y, exchangeStep Exchange.init .copyBackEnds = some y ∧
      y.calls = [ConnCall.closeRead Conn.dst] ∧
      ConnCall.closeWrite Conn.src ∉ y.calls :=
  ⟨_, rfl, rfl, by decide⟩

/-- C8 amended: when the copy from `src` to `dst` ends, `exchange` closes the
write side of `dst` and leaves the copy from `dst` to `src` as it is; when the
copy from `dst` to `src` ends, it closes the read side of `dst`, makes no call
on `src`, and leaves the copy from `src` to `dst` as it is. -/
theorem exchange_half_close (x : Exchange) :
    (x.copyOut = true →
      ∃ y, exchangeStep x .copyOutEnds = some y ∧
        y.calls = x.calls ++ [ConnCall.closeWrite Conn.dst] ∧
        y.copyOut = false ∧ y.copyBack = x.copyBack ∧ y.returned = x.returned) ∧
    (x.copyBack = true →
      ∃ y, exchangeStep x .copyBackEnds = some y ∧
        y.calls = x.calls ++ [ConnCall.closeRead Conn.dst] ∧
        y.copyBack = false ∧ y.copyOut = x.copyOut ∧ y.returned = x.returned) := by
  constructor
  · intro h
    exact ⟨{ x with copyOut := false, calls := x.calls ++ [ConnCall.closeWrite Conn.dst],
                    wg := x.wg - 1 },
      by simp [exchangeStep, h], rfl, rfl, rfl, rfl⟩
  · intro h
    exact ⟨{ x with copyBack := false, calls := x.calls ++ [ConnCall.closeRead Conn.dst],
                    wg := x.wg - 1 },
      by simp [exchangeStep, h], rfl, rfl, rfl, rfl⟩

theorem exchange_half_close_witness :
    Exchange.init.copyBack = true ∧
    ∃ y, exchangeStep Exchange.init .copyBackEnds = some y ∧
      y.calls = Exchange.init.calls ++ [ConnCall.closeRead Conn.dst] ∧
      y.copyBack = false ∧ y.copyOut = Exchange.init.copyOut ∧
      y.returned = Exchange.init.returned :=
  ⟨rfl, (exchange_half_close Exchange.init).2 rfl⟩

/-! ## Sessions and the goroutines of `loop` -/

theorem updateSession_append_fresh (ss : List Session) (x : Session)
    (f : Session → Option Session) (hfresh : ∀ y ∈ ss, y.ctx ≠ x.ctx) :
    updateSession (ss ++ [x]) x.ctx f = (f x).map (fun y => ss ++ [y]) := by
  induction ss with
  | nil =>
    simp only [List.nil_append, updateSession, if_true]
  | cons a rest ih =>
    have ha : ¬ a.ctx = x.ctx := hfresh a (List.mem_cons_self _ _)
    have hrest : ∀ y ∈ rest, y.ctx ≠ x.ctx :=
      fun y hy => hfresh y (List.mem_cons_of_mem _ hy)
    rw [List.cons_append]
    unfold updateSession
    rw [if_neg ha, ih hrest]
    cases f x <;> rfl

/-- C6 as stated fails: after `Added(0.0.0.0:8080)` and the failure of
`client.ListenTCP` in the session it started, port 8080 is still a key of the
registry, bound to the same cancel function, whereas a `Removed` event for
the port would have left the registry without it. -/
theorem listenFails_entry_stays :
    ∃ s1 s2 s3,
      loopStep LoopSys.init (.deliver ⟨.ADDED, ⟨0, 8080⟩⟩) = some s1 ∧
      loopStep s1 (.listenFails 0 "ssh: tcpip-forward request denied by peer") = some s2 ∧
      loopStep s1 (.deliver ⟨.REMOVED, ⟨0, 8080⟩⟩) = some s3 ∧
      8080 ∈ kvKeys s2.reg.forwards ∧
      8080 ∉ kvKeys s3.reg.forwards :=
  ⟨_, _, _, rfl, rfl, rfl, by decide, by decide⟩

/-- C6 amended: when a session is started for a newly added port `P` and fails to
open its remote listener, `forward` returns the error, which is logged, and the
registry is left as the `Added` event left it: `P` stays a key, bound to the
cancel function of that session, no cancel function is called, and the entries
of all other ports are unchanged. -/
theorem listenFails_registry_unchanged (s : LoopSys) (e : AddrPort) (err : GoError)
    (hphase : s.phase = .watching) (hk : e.port ∉ kvKeys s.reg.forwards)
    (hfresh : ∀ x ∈ s.sessions, x.ctx ≠ s.reg.derived) :
    ∃ s1 s2,
      loopStep s (.deliver ⟨.ADDED, e⟩) = some s1 ∧
      loopStep s1 (.listenFails s.reg.derived err) = some s2 ∧
      s2.reg = s1.reg ∧
      kvGet s2.reg.forwards e.port = some s.reg.derived ∧
      (∀ q, q ≠ e.port → kvGet s2.reg.forwards q = kvGet s.reg.forwards q) ∧
      s2.cancelled = s.cancelled ∧
      s2.logged = s.logged ++ [err] ∧
      s2.sessions = s.sessions ++
        [{ ctx := s.reg.derived, port := e.port, phase := .returned (some err), relays := 0 }] := by
  have hnone : kvGet s.reg.forwards e.port = none := (kvGet_eq_none_iff _ _).mpr hk
  have hcall := handlerCall_added_none s.reg e hnone
  have h1 : loopStep s (.deliver ⟨.ADDED, e⟩)
      = some { s with
          reg := { forwards := kvPut s.reg.forwards e.port s.reg.derived,
                   derived := s.reg.derived + 1 },
          sessions := s.sessions ++
            [{ ctx := s.reg.derived, port := e.port, phase := .opening, relays := 0 }],
          cancelled := s.cancelled,
          effects := s.effects ++
            [Effect.logEvent .ADDED e, Effect.spawn s.reg.derived e.port] } := by
    simp only [loopStep, hphase, hcall, sessionsStarted, scopesCancelled, List.filterMap_cons,
      List.filterMap_nil, List.map_cons, List.map_nil, List.append_nil]
  have hup := updateSession_append_fresh s.sessions
    { ctx := s.reg.derived, port := e.port, phase := .opening, relays := 0 }
    (fun x => match x.phase with
      | .opening => some { x with phase := .returned (some err) }
      | _ => none) hfresh
  refine ⟨_,
    { s with
        reg := { forwards := kvPut s.reg.forwards e.port s.reg.derived,
                 derived := s.reg.derived + 1 },
        sessions := s.sessions ++
          [{ ctx := s.reg.derived, port := e.port, phase := .returned (some err), relays := 0 }],
        cancelled := s.cancelled,
        effects := s.effects ++
          [Effect.logEvent .ADDED e, Effect.spawn s.reg.derived e.port],
        logged := s.logged ++ [err] }, h1, ?_, rfl, ?_, ?_, rfl, rfl, rfl⟩
  · simp only [loopStep]
    rw [hup]
    rfl
  · simp [kvGet_kvPut]
  · intro q hq
    simp [kvGet_kvPut, hq]

theorem listenFails_registry_unchanged_witness :
    LoopSys.init.phase = .watching ∧ (8080 : Nat) ∉ kvKeys LoopSys.init.reg.forwards ∧
    (∀ x ∈ LoopSys.init.sessions, x.ctx ≠ LoopSys.init.reg.derived) ∧
    ∃ s1 s2,
      loopStep LoopSys.init (.deliver ⟨.ADDED, ⟨0, 8080⟩⟩) = some s1 ∧
      loopStep s1 (.listenFails LoopSys.init.reg.derived "denied") = some s2 ∧
      s2.reg = s1.reg ∧
      kvGet s2.reg.forwards 8080 = some LoopSys.init.reg.derived ∧
      (∀ q, q ≠ 8080 → kvGet s2.reg.forwards q = kvGet LoopSys.init.reg.forwards q) ∧
      s2.cancelled = LoopSys.init.cancelled ∧
      s2.logged = LoopSys.init.logged ++ ["denied"] ∧
      s2.sessions = LoopSys.init.sessions ++
        [{ ctx := LoopSys.init.reg.derived, port := 8080, phase := .returned (some "denied"),
           relays := 0 }] :=
  ⟨rfl, by decide, by decide,
    listenFails_registry_unchanged LoopSys.init ⟨0, 8080⟩ "denied" rfl (by decide) (by decide)⟩

/-- C7 at the failing schedule: a session is started for port 8080, opens its
listener, accepts one connection, then gets an accept error; the watcher
returns and `loop` returns while the relay of that connection has not finished
(the `wg` counter of the session is still 1). -/
theorem loop_returns_with_relay_in_flight :
    ∃ s,
      loopRun LoopSys.init
        [.deliver ⟨.ADDED, ⟨0, 8080⟩⟩, .listenOk 0, .accepted 0,
         .acceptFails 0 "EOF", .watcherReturns none, .loopReturns] = some s ∧
      s.loopReturned = true ∧
      s.sessions =
        [{ ctx := 0, port := 8080, phase := .returned (some "EOF"), relays := 1 }] :=
  ⟨_, rfl, rfl, rfl⟩

/-! ## The registry across poll cycles -/

theorem kvGet_some_mem_keys (m : List (Nat × Nat)) (k v : Nat) (h : kvGet m k = some v) :
    k ∈ kvKeys m := by
  by_contra hcon
  rw [(kvGet_eq_none_iff _ _).mpr hcon] at h
  exact Option.noConfusion h

theorem mem_keys_handler_added (s : LoopState) (e : AddrPort) (p : Nat) :
    p ∈ kvKeys (handler s ⟨.ADDED, e⟩).reg.forwards
      ↔ p ∈ kvKeys s.reg.forwards ∨ p = e.port := by
  unfold handler
  rcases hk : kvGet s.reg.forwards e.port with _ | c
  · rw [handlerCall_added_none _ e hk]
    exact mem_kvKeys_kvPut _ _ _ _
  · rw [handlerCall_added_some _ e c hk]
    have hin := kvGet_some_mem_keys _ _ _ hk
    constructor
    · exact fun h => Or.inl h
    · rintro (h | h)
      · exact h
      · rw [h]; exact hin

theorem mem_keys_handler_removed (s : LoopState) (e : AddrPort) (p : Nat) :
    p ∈ kvKeys (handler s ⟨.REMOVED, e⟩).reg.forwards
      ↔ p ∈ kvKeys s.reg.forwards ∧ p ≠ e.port := by
  unfold handler
  rcases hk : kvGet s.reg.forwards e.port with _ | c
  · rw [handlerCall_removed_none _ e hk]
    have hnot := (kvGet_eq_none_iff _ _).mp hk
    constructor
    · exact fun h => ⟨h, fun hp => hnot (hp ▸ h)⟩
    · exact fun h => h.1
  · rw [handlerCall_removed_some _ e c hk]
    exact mem_kvKeys_kvDelete _ _ _

theorem mem_keys_foldl_added (l : List AddrPort) (s : LoopState) (p : Nat) :
    p ∈ kvKeys (l.foldl (fun st addr => handler st { kind := .ADDED, addr := addr }) s).reg.forwards
      ↔ p ∈ kvKeys s.reg.forwards ∨ ∃ a ∈ l, a.port = p := by
  induction l generalizing s with
  | nil => simp
  | cons x xs ih =>
    rw [List.foldl_cons, ih, mem_keys_handler_added]
    simp only [List.mem_cons, exists_eq_or_imp]
    constructor
    · rintro ((h | h) | h)
      · exact Or.inl h
      · exact Or.inr (Or.inl h.symm)
      · exact Or.inr (Or.inr h)
    · rintro (h | h | h)
      · exact Or.inl (Or.inl h)
      · exact Or.inl (Or.inr h.symm)
      · exact Or.inr h

theorem mem_keys_foldl_removed (l : List AddrPort) (s : LoopState) (p : Nat) :
    p ∈ kvKeys (l.foldl (fun st addr => handler st { kind := .REMOVED, addr := addr }) s).reg.forwards
      ↔ p ∈ kvKeys s.reg.forwards ∧ ∀ a ∈ l, a.port ≠ p := by
  induction l generalizing s with
  | nil => simp
  | cons x xs ih =>
    rw [List.foldl_cons, ih, mem_keys_handler_removed]
    simp only [List.mem_cons, forall_eq_or_imp]
    constructor
    · rintro ⟨⟨h1, h2⟩, h3⟩
      exact ⟨h1, fun hx => h2 hx.symm, h3⟩
    · rintro ⟨h1, h2, h3⟩
      exact ⟨⟨h1, fun hx => h2 hx.symm⟩, h3⟩

theorem keys_after_cycle (ord : RangeOrder) (C m : List AddrPort) (s : LoopState)
    (ts : List Tick) (hC : C.Nodup) :
    ∃ m1 s1,
      watchLoop handler ({ query := .ok C, order := ord, done := false } :: ts) m s
        = watchLoop handler ts m1 s1 ∧
      m1.Nodup ∧ (∀ a, a ∈ m1 ↔ a ∈ C) ∧
      ∀ p, p ∈ kvKeys s1.reg.forwards ↔
        (p ∈ kvKeys s.reg.forwards ∨ ∃ a ∈ C, a ∉ m ∧ a.port = p) ∧
        ∀ a ∈ m, a ∉ C → a.port ≠ p := by
  have hu := updateListens_ok ord C m
  have hadd := diff_added_mem m C hC
  have hrem := diff_removed_mem ord m C
  have hm1 := foldl_diffStep_new_nodup C { new := [], old := m, added := [] } List.nodup_nil
  have hmem := diff_new_mem m C
  refine ⟨_,
    (ord.visit (C.foldl diffStep { new := [], old := m, added := [] }).old).foldl
      (fun st addr => handler st { kind := .REMOVED, addr := addr })
      ((C.foldl diffStep { new := [], old := m, added := [] }).added.foldl
        (fun st addr => handler st { kind := .ADDED, addr := addr }) s),
    ?_, hm1, hmem, ?_⟩
  · rw [watchLoop_cons_ok handler _ ts m _ _ _ s hu]
    simp
  · intro p
    rw [mem_keys_foldl_removed, mem_keys_foldl_added]
    constructor
    · rintro ⟨h1, h2⟩
      refine ⟨?_, fun a ha hna => h2 a ((hrem a).mpr ⟨ha, hna⟩)⟩
      rcases h1 with h | ⟨a, ha, hp⟩
      · exact Or.inl h
      · exact Or.inr ⟨a, ((hadd a).mp ha).1, ((hadd a).mp ha).2, hp⟩
    · rintro ⟨h1, h2⟩
      refine ⟨?_, fun a ha => h2 a ((hrem a).mp ha).1 ((hrem a).mp ha).2⟩
      rcases h1 with h | ⟨a, ha, hna, hp⟩
      · exact Or.inl h
      · exact Or.inr ⟨a, (hadd a).mpr ⟨ha, hna⟩, hp⟩

theorem ticksOf_cons (c : List AddrPort × RangeOrder) (cs : List (List AddrPort × RangeOrder)) :
    ticksOf (c :: cs) = { query := .ok c.1, order := c.2, done := false } :: ticksOf cs := rfl

theorem keys_subset_ports (cs : List (List AddrPort × RangeOrder)) (C : List AddrPort)
    (ord : RangeOrder) (m : List AddrPort) (s : LoopState)
    (hkeys : ∀ p, p ∈ kvKeys s.reg.forwards → ∃ a ∈ m, a.port = p)
    (hcs : ∀ c ∈ cs, c.1.Nodup) (hC : C.Nodup) :
    ∀ p, p ∈ kvKeys (watchLoop handler (ticksOf (cs ++ [(C, ord)])) m s).state.reg.forwards →
      ∃ a ∈ C, a.port = p := by
  induction cs generalizing m s with
  | nil =>
    intro p hp
    obtain ⟨m1, s1, hrun, _, _, hk⟩ := keys_after_cycle ord C m s [] hC
    have hrun1 : watchLoop handler (ticksOf ([] ++ [(C, ord)])) m s
        = watchLoop handler [] m1 s1 := hrun
    rw [hrun1] at hp
    have hp1 := (hk p).mp hp
    rcases hp1.1 with h | ⟨a, ha, _, hap⟩
    · obtain ⟨a, ha, hap⟩ := hkeys p h
      by_cases hac : a ∈ C
      · exact ⟨a, hac, hap⟩
      · exact absurd hap (hp1.2 a ha hac)
    · exact ⟨a, ha, hap⟩
  | cons c rest ih =>
    have hc : c.1.Nodup := hcs c (List.mem_cons_self _ _)
    obtain ⟨m1, s1, hrun, hm1, hmem, hk⟩ :=
      keys_after_cycle c.2 c.1 m s (ticksOf (rest ++ [(C, ord)])) hc
    rw [List.cons_append, ticksOf_cons, hrun]
    apply ih m1 s1
    · intro p hp
      have hp1 := (hk p).mp hp
      rcases hp1.1 with h | ⟨a, ha, _, hap⟩
      · obtain ⟨a, ha, hap⟩ := hkeys p h
        by_cases hac : a ∈ c.1
        · exact ⟨a, (hmem a).mpr hac, hap⟩
        · exact absurd hap (hp1.2 a ha hac)
      · exact ⟨a, (hmem a).mpr ha, hap⟩
    · exact fun x hx => hcs x (List.mem_cons_of_mem _ hx)

theorem key_iff_gained_and_kept (p : Nat) (hist : List (List AddrPort × RangeOrder))
    (P m : List AddrPort) (s : LoopState) (hmP : ∀ a, a ∈ m ↔ a ∈ P)
    (hh : ∀ c ∈ hist, c.1.Nodup) :
    p ∈ kvKeys (watchLoop handler (ticksOf hist) m s).state.reg.forwards ↔
      (p ∈ kvKeys s.reg.forwards ∧ List.Chain (keepsPort p) P (hist.map Prod.fst)) ∨
      ∃ cs1 c cs2, hist = cs1 ++ c :: cs2 ∧
        gainsPort p (lastSnapshot P cs1) c.1 ∧
        List.Chain (keepsPort p) (lastSnapshot P cs1) ((c :: cs2).map Prod.fst) := by
  induction hist generalizing P m s with
  | nil =>
    constructor
    · intro h
      exact Or.inl ⟨h, List.Chain.nil⟩
    · rintro (h | ⟨cs1, c, cs2, h, _⟩)
      · exact h.1
      · exact absurd h (by simp)
  | cons c0 rest ih =>
    have hc0 : c0.1.Nodup := hh c0 (List.mem_cons_self _ _)
    have hrest : ∀ c ∈ rest, c.1.Nodup := fun x hx => hh x (List.mem_cons_of_mem _ hx)
    obtain ⟨m1, s1, hrun, _, hmem, hk⟩ := keys_after_cycle c0.2 c0.1 m s (ticksOf rest) hc0
    have hg : (∃ a ∈ c0.1, a ∉ m ∧ a.port = p) ↔ gainsPort p P c0.1 := by
      unfold gainsPort
      constructor
      · rintro ⟨a, ha, hna, hp⟩
        exact ⟨a, ha, fun h => hna ((hmP a).mpr h), hp⟩
      · rintro ⟨a, ha, hna, hp⟩
        exact ⟨a, ha, fun h => hna ((hmP a).mp h), hp⟩
    have hkp : (∀ a ∈ m, a ∉ c0.1 → a.port ≠ p) ↔ keepsPort p P c0.1 := by
      unfold keepsPort
      constructor
      · exact fun h b hb => h b ((hmP b).mpr hb)
      · exact fun h b hb => h b ((hmP b).mp hb)
    rw [ticksOf_cons, hrun, ih c0.1 m1 s1 hmem hrest, hk p, hg, hkp]
    simp only [List.map_cons, List.chain_cons]
    constructor
    · rintro (⟨⟨hkey | hgain, hkeep⟩, hch⟩ | ⟨cs1, c, cs2, hsplit, hgain, hkeep, hch⟩)
      · exact Or.inl ⟨hkey, hkeep, hch⟩
      · exact Or.inr ⟨[], c0, rest, rfl, hgain, hkeep, hch⟩
      · refine Or.inr ⟨c0 :: cs1, c, cs2, ?_, hgain, hkeep, hch⟩
        rw [hsplit]
        rfl
    · rintro (⟨hkey, hkeep, hch⟩ | ⟨cs1, c, cs2, hsplit, hgain, hkeep, hch⟩)
      · exact Or.inl ⟨⟨Or.inl hkey, hkeep⟩, hch⟩
      · cases cs1 with
        | nil =>
          rw [List.nil_append, List.cons.injEq] at hsplit
          obtain ⟨h1, h2⟩ := hsplit
          subst h1
          subst h2
          exact Or.inl ⟨⟨Or.inr hgain, hkeep⟩, hch⟩
        | cons d cs1 =>
          rw [List.cons_append, List.cons.injEq] at hsplit
          obtain ⟨h1, h2⟩ := hsplit
          subst h1
          exact Or.inr ⟨cs1, c, cs2, h2, hgain, hkeep, hch⟩

/-- C10 as stated fails: when two endpoints share port 80 and one of them
goes away, within one snapshot (`1:80` and `2:80`, then `1:80` alone) or
across consecutive snapshots (`1:80`, then `2:80` instead), the registry ends
the cycle without the key 80 although an endpoint of the snapshot has port 80. -/
theorem registry_drops_shared_port :
    80 ∉ kvKeys (watchListens handler
      (ticksOf [([⟨1, 80⟩, ⟨2, 80⟩], RangeOrder.stored), ([⟨1, 80⟩], RangeOrder.stored)])
      LoopState.init).state.reg.forwards ∧
    80 ∉ kvKeys (watchListens handler
      (ticksOf [([⟨1, 80⟩], RangeOrder.stored), ([⟨2, 80⟩], RangeOrder.stored)])
      LoopState.init).state.reg.forwards := by
  decide

/-- C10 amended: for every sequence of successful, duplicate-free query
results starting from the empty snapshot, after the handler has processed all
events of a poll cycle, a port `p` is a key of the registry only if an endpoint
of that cycle's snapshot has port `p`; and `p` is a key if and only if there is
a cycle, that one or an earlier one, whose snapshot gained an endpoint with
port `p` (one not in the snapshot before it) and from which on, through the
cycle just processed, no snapshot lost an endpoint with port `p` (one that was
in the snapshot before it). -/
theorem registry_keys_after_cycle (cs : List (List AddrPort × RangeOrder))
    (C : List AddrPort) (ord : RangeOrder) (p : Nat)
    (hcs : ∀ c ∈ cs, c.1.Nodup) (hC : C.Nodup) :
    (p ∈ kvKeys (watchListens handler (ticksOf (cs ++ [(C, ord)]))
        LoopState.init).state.reg.forwards → ∃ a ∈ C, a.port = p) ∧
    (p ∈ kvKeys (watchListens handler (ticksOf (cs ++ [(C, ord)]))
        LoopState.init).state.reg.forwards ↔
      ∃ cs1 c cs2, cs ++ [(C, ord)] = cs1 ++ c :: cs2 ∧
        gainsPort p (lastSnapshot [] cs1) c.1 ∧
        List.Chain (keepsPort p) (lastSnapshot [] cs1) ((c :: cs2).map Prod.fst)) := by
  have hall : ∀ c ∈ cs ++ [(C, ord)], c.1.Nodup := by
    intro c hc
    rcases List.mem_append.mp hc with h | h
    · exact hcs c h
    · rw [List.mem_singleton] at h
      rw [h]
      exact hC
  constructor
  · exact keys_subset_ports cs C ord [] LoopState.init
      (fun q hq => by simp [LoopState.init, Registry.init, kvKeys] at hq) hcs hC p
  · unfold watchListens
    rw [key_iff_gained_and_kept p (cs ++ [(C, ord)]) [] [] LoopState.init (fun _ => Iff.rfl) hall]
    constructor
    · rintro (h | h)
      · exact absurd h.1 (by simp [LoopState.init, Registry.init, kvKeys])
      · exact h
    · exact fun h => Or.inr h

theorem registry_keys_after_cycle_witness :
    (∀ c ∈ [(([⟨4, 22⟩, ⟨6, 22⟩] : List AddrPort), RangeOrder.stored)], c.1.Nodup) ∧
    ([⟨4, 22⟩, ⟨6, 22⟩, ⟨4, 8080⟩] : List AddrPort).Nodup ∧
    (∃ a ∈ ([⟨4, 22⟩, ⟨6, 22⟩, ⟨4, 8080⟩] : List AddrPort), a.port = 22) ∧
    22 ∈ kvKeys (watchListens handler
      (ticksOf ([(([⟨4, 22⟩, ⟨6, 22⟩] : List AddrPort), RangeOrder.stored)] ++
        [(([⟨4, 22⟩, ⟨6, 22⟩, ⟨4, 8080⟩] : List AddrPort), RangeOrder.reversed)]))
      LoopState.init).state.reg.forwards :=
  ⟨by decide, by decide, by decide,
    (registry_keys_after_cycle [([⟨4, 22⟩, ⟨6, 22⟩], RangeOrder.stored)]
      [⟨4, 22⟩, ⟨6, 22⟩, ⟨4, 8080⟩] RangeOrder.reversed 22 (by decide) (by decide)).2.mpr
      ⟨[], ([⟨4, 22⟩, ⟨6, 22⟩], RangeOrder.stored),
        [([⟨4, 22⟩, ⟨6, 22⟩, ⟨4, 8080⟩], RangeOrder.reversed)], rfl, by decide,
        List.Chain.cons (by decide) (List.Chain.cons (by decide) List.Chain.nil)⟩⟩

/-! ## Sessions that end by cancellation are drained -/

theorem updateSession_forall (P : Session → Prop) (f : Session → Option Session)
    (ctx : Nat) (ss ss1 : List Session) (h : ∀ x ∈ ss, P x)
    (hf : ∀ x y, P x → f x = some y → P y)
    (hu : updateSession ss ctx f = some ss1) : ∀ x ∈ ss1, P x := by
  induction ss generalizing ss1 with
  | nil => simp [updateSession] at hu
  | cons a rest ih =>
    unfold updateSession at hu
    have ha : P a := h a (List.mem_cons_self _ _)
    have hrest : ∀ x ∈ rest, P x := fun x hx => h x (List.mem_cons_of_mem _ hx)
    by_cases hc : a.ctx = ctx
    · rw [if_pos hc] at hu
      obtain ⟨y, hy, rfl⟩ := Option.map_eq_some'.mp hu
      intro x hx
      rcases List.mem_cons.mp hx with rfl | hx
      · exact hf a _ ha hy
      · exact hrest x hx
    · rw [if_neg hc] at hu
      obtain ⟨ys, hys, rfl⟩ := Option.map_eq_some'.mp hu
      intro x hx
      rcases List.mem_cons.mp hx with rfl | hx
      · exact ha
      · exact ih ys hrest hys x hx

theorem loopStep_drainedIfNil (s s1 : LoopSys) (e : LoopEvent) (h : loopStep s e = some s1)
    (hinv : ∀ x ∈ s.sessions, x.drainedIfNil) : ∀ x ∈ s1.sessions, x.drainedIfNil := by
  cases e with
  | deliver ev =>
    simp only [loopStep] at h
    cases hph : s.phase <;> rw [hph] at h <;> simp only [Option.some.injEq] at h
    · subst h
      intro x hx
      rcases List.mem_append.mp hx with hx | hx
      · exact hinv x hx
      · obtain ⟨cp, _, rfl⟩ := List.mem_map.mp hx
        exact fun _ => rfl
    all_goals exact absurd h (by simp)
  | parentDone =>
    simp only [loopStep, Option.some.injEq] at h
    subst h
    exact hinv
  | watcherReturns err =>
    simp only [loopStep] at h
    cases hph : s.phase <;> rw [hph] at h <;> simp only [Option.some.injEq] at h
    · subst h
      exact hinv
    all_goals exact absurd h (by simp)
  | loopReturns =>
    simp only [loopStep] at h
    cases hph : s.phase <;> rw [hph] at h
    · exact absurd h (by simp)
    · by_cases hall : s.sessions.all Session.hasReturned = true
      · simp only [hall, if_true, Option.some.injEq] at h
        subst h
        exact hinv
      · simp [hall] at h
    · exact absurd h (by simp)
  | listenFails ctx err =>
    simp only [loopStep] at h
    obtain ⟨ss, hss, rfl⟩ := Option.map_eq_some'.mp h
    refine updateSession_forall _ _ _ _ _ hinv ?_ hss
    intro x y hx hf
    cases hph : x.phase <;> rw [hph] at hf <;> simp only [Option.some.injEq] at hf
    · subst hf
      intro _
      exact hx (Or.inl hph)
    all_goals exact absurd hf (by simp)
  | listenOk ctx =>
    simp only [loopStep] at h
    obtain ⟨ss, hss, rfl⟩ := Option.map_eq_some'.mp h
    refine updateSession_forall _ _ _ _ _ hinv ?_ hss
    intro x y hx hf
    cases hph : x.phase <;> rw [hph] at hf <;> simp only [Option.some.injEq] at hf
    · subst hf
      intro _
      exact hx (Or.inl hph)
    all_goals exact absurd hf (by simp)
  | accepted ctx =>
    simp only [loopStep] at h
    obtain ⟨ss, hss, rfl⟩ := Option.map_eq_some'.mp h
    refine updateSession_forall _ _ _ _ _ hinv ?_ hss
    intro x y hx hf
    cases hph : x.phase <;> rw [hph] at hf <;> simp only [Option.some.injEq] at hf
    · exact absurd hf (by simp)
    · subst hf
      intro hy
      simp [hph] at hy
    all_goals exact absurd hf (by simp)
  | acceptFails ctx err =>
    simp only [loopStep] at h
    obtain ⟨ss, hss, rfl⟩ := Option.map_eq_some'.mp h
    refine updateSession_forall _ _ _ _ _ hinv ?_ hss
    intro x y hx hf
    cases hph : x.phase <;> rw [hph] at hf <;> simp only [Option.some.injEq] at hf
    · exact absurd hf (by simp)
    · subst hf
      intro hy
      simp at hy
    all_goals exact absurd hf (by simp)
  | scopeDone ctx =>
    simp only [loopStep] at h
    by_cases hd : s.scopeIsDone ctx = true
    · rw [if_pos hd] at h
      obtain ⟨ss, hss, rfl⟩ := Option.map_eq_some'.mp h
      refine updateSession_forall _ _ _ _ _ hinv ?_ hss
      intro x y hx hf
      cases hph : x.phase <;> rw [hph] at hf <;> simp only [Option.some.injEq] at hf
      · exact absurd hf (by simp)
      · subst hf
        intro hy
        simp at hy
      all_goals exact absurd hf (by simp)
    · rw [if_neg hd] at h
      exact absurd h (by simp)
  | relayDone ctx =>
    simp only [loopStep] at h
    obtain ⟨ss, hss, rfl⟩ := Option.map_eq_some'.mp h
    refine updateSession_forall _ _ _ _ _ hinv ?_ hss
    intro x y hx hf
    by_cases hr : 0 < x.relays
    · rw [if_pos hr] at hf
      simp only [Option.some.injEq] at hf
      subst hf
      intro hy
      have := hx hy
      omega
    · rw [if_neg hr] at hf
      exact absurd hf (by simp)
  | drained ctx =>
    simp only [loopStep] at h
    obtain ⟨ss, hss, rfl⟩ := Option.map_eq_some'.mp h
    refine updateSession_forall _ _ _ _ _ hinv ?_ hss
    intro x y hx hf
    cases hph : x.phase <;> rw [hph] at hf <;> simp only [Option.some.injEq] at hf
    · exact absurd hf (by simp)
    · exact absurd hf (by simp)
    · by_cases hr : x.relays = 0
      · rw [if_pos hr] at hf
        simp only [Option.some.injEq] at hf
        subst hf
        exact fun _ => hr
      · rw [if_neg hr] at hf
        exact absurd hf (by simp)
    · exact absurd hf (by simp)

/-- On every schedule, a session whose `forward` returned `nil` (it ended by
cancellation, through `cancel()` and `wg.Wait()`) has no relay in flight, in
particular when `loop` returns. -/
theorem loopRun_cancelled_sessions_drained (tr : List LoopEvent) (s s1 : LoopSys)
    (hinv : ∀ x ∈ s.sessions, x.drainedIfNil) (h : loopRun s tr = some s1) :
    ∀ x ∈ s1.sessions, x.phase = .returned none → x.relays = 0 := by
  induction tr generalizing s with
  | nil =>
    simp only [loopRun, Option.some.injEq] at h
    subst h
    exact fun x hx hp => hinv x hx (Or.inr hp)
  | cons e es ih =>
    unfold loopRun at h
    cases hs : loopStep s e with
    | none => rw [hs] at h; exact absurd h (by simp)
    | some s2 =>
      rw [hs] at h
      exact ih s2 (loopStep_drainedIfNil s s2 e hs hinv) h

end PortForward
